import Mathlib

/-!
Verification of the gravity simulation core (`gravity_sim.py`).

The numerical state is embedded over the real numbers.  The `numpy`
pipeline of `calculate_acceleration` / `calculate_potential`

  `dist = positions[newaxis,:,:] - positions[:,newaxis,:]`
  `result = norm(dist); result += eye; result = 1/result**k; result -= eye;
   result[result == inf] = 0`

is embedded step by step: `Option ℝ` models an IEEE float that may be the
infinity produced by dividing by zero (`none` stands for `inf`), so the
"add identity / invert / subtract identity / zero out infinities" diagonal
guard of the source appears literally, and the final `result[result == inf]
= 0` is `Option.getD 0`.  Real numbers have no NaN or infinity, so the
faithful rendering of "no Inf appears" is that every intermediate entry is
`some`.
-/

namespace GravitySim

noncomputable section

/-- A 2-D vector of floats, as used throughout `gravity_sim.py`. -/
abbrev Vec2 : Type := ℝ × ℝ

/-- `np.linalg.norm` of a 2-vector: the Euclidean norm. -/
def norm2 (v : Vec2) : ℝ := Real.sqrt (v.1 ^ 2 + v.2 ^ 2)

/-- `np.cross` of two 2-vectors: the scalar z-component `a.1*b.2 - a.2*b.1`. -/
def cross2 (a b : Vec2) : ℝ := a.1 * b.2 - a.2 * b.1

/-- Elementwise division of a 2-vector by a scalar (`vector / scalar` in numpy). -/
def vdiv (v : Vec2) (c : ℝ) : Vec2 := (v.1 / c, v.2 / c)

/-- `np.eye(n)` entry at `(i, j)`. -/
def eye {n : ℕ} (i j : Fin n) : ℝ := if i = j then 1 else 0

/-- numpy reciprocal `1 / x`: `none` stands for the IEEE `inf` produced at `x = 0`. -/
def npInv (x : ℝ) : Option ℝ := if x = 0 then none else some (1 / x)

/-- The pairwise difference matrix of `calculate_acceleration` line
`dist = self.positions[np.newaxis, :, :] - self.positions[:, np.newaxis, :]`:
entry `(i, j)` is `positions[j] - positions[i]`. -/
def distVec {n : ℕ} (p : Fin n → Vec2) (i j : Fin n) : Vec2 := p j - p i

/-- The inverse-cube matrix of `calculate_acceleration`:
`result = norm(dist); result += eye; result = 1 / result ** 3; result -= eye`.
`none` marks an entry that is `inf` at this point of the pipeline. -/
def invCubeEnt {n : ℕ} (p : Fin n → Vec2) (i j : Fin n) : Option ℝ :=
  (npInv ((norm2 (distVec p i j) + eye i j) ^ 3)).map (fun x => x - eye i j)

/-- The inverse-cube factor after `result[result == np.inf] = 0`. -/
def accFactor {n : ℕ} (p : Fin n → Vec2) (i j : Fin n) : ℝ :=
  (invCubeEnt p i j).getD 0

/-- Body of `State.calculate_acceleration` (source lines 62-73):
`result = result[:, :, np.newaxis] * dist`, then
`result = NewtonG * masses[:, np.newaxis] * result` (broadcasting multiplies
entry `(i, j)` by `masses[j]`), then `np.sum(result, axis=1)`. -/
def accelOf {n : ℕ} (G : ℝ) (m : Fin n → ℝ) (p : Fin n → Vec2) : Fin n → Vec2 :=
  fun i => ∑ j, (G * m j * accFactor p i j) • distVec p i j

/-- The inverse-distance matrix of `calculate_potential`:
`result = norm(dist); result += eye; result = 1 / result; result -= eye`.
`none` marks an entry that is `inf` at this point of the pipeline. -/
def invEnt {n : ℕ} (p : Fin n → Vec2) (i j : Fin n) : Option ℝ :=
  (npInv (norm2 (distVec p i j) + eye i j)).map (fun x => x - eye i j)

/-- The inverse-distance factor after `result[result == np.inf] = 0`. -/
def potFactor {n : ℕ} (p : Fin n → Vec2) (i j : Fin n) : ℝ :=
  (invEnt p i j).getD 0

/-- Body of `State.calculate_potential` (source lines 75-85):
`result = - NewtonG * masses[:, np.newaxis] * masses[np.newaxis, :] * result`
(entry `(i, j)` is `-G * m_i * m_j * factor(i,j)`), then `np.sum(result)`
over the whole matrix, i.e. over all ordered pairs. -/
def potentialOf {n : ℕ} (G : ℝ) (m : Fin n → ℝ) (p : Fin n → Vec2) : ℝ :=
  ∑ i, ∑ j, -G * m i * m j * potFactor p i j

/-- Body of `State.calculate_kinetic` (line 89):
`0.5 * np.linalg.norm(velocities, axis=1) ** 2 @ masses`. -/
def kineticOf {n : ℕ} (m : Fin n → ℝ) (v : Fin n → Vec2) : ℝ :=
  ∑ i, 0.5 * norm2 (v i) ^ 2 * m i

/-- Body of `State.calculate_momentum` (line 97): `masses @ velocities`. -/
def momentumOf {n : ℕ} (m : Fin n → ℝ) (v : Fin n → Vec2) : Vec2 :=
  ∑ i, m i • v i

/-- Body of `State.calculate_center_of_mass` (line 101):
`masses @ positions / np.sum(masses)`. -/
def centerOfMassOf {n : ℕ} (m : Fin n → ℝ) (p : Fin n → Vec2) : Vec2 :=
  vdiv (∑ i, m i • p i) (∑ i, m i)

/-- The `State` object of `gravity_sim.py`, indexed by the particle count
`n` (`self.number_of_particles`).  The per-particle `Particle` objects that
`update_trackables` refreshes for the renderer are plain copies of rows of
these arrays and are never read back by the physics, so they are not part
of the model. -/
structure State (n : ℕ) where
  NewtonG : ℝ
  dt : ℝ
  masses : Fin n → ℝ
  positions : Fin n → Vec2
  velocities : Fin n → Vec2
  accelerations : Fin n → Vec2
  momentum : Vec2
  kinetic_energy : ℝ
  potential_energy : ℝ
  energy : ℝ
  center_of_mass : Vec2
  angular_momentum : ℝ

/-- `State.calculate_acceleration` (source lines 62-73). -/
def calculate_acceleration {n : ℕ} (s : State n) : Fin n → Vec2 :=
  accelOf s.NewtonG s.masses s.positions

/-- `State.calculate_potential` (source lines 75-85). -/
def calculate_potential {n : ℕ} (s : State n) : ℝ :=
  potentialOf s.NewtonG s.masses s.positions

/-- `State.calculate_kinetic` (source lines 87-89). -/
def calculate_kinetic {n : ℕ} (s : State n) : ℝ :=
  kineticOf s.masses s.velocities

/-- `State.calculate_energy` (source lines 91-93): reads the stored
`kinetic_energy` and `potential_energy` attributes. -/
def calculate_energy {n : ℕ} (s : State n) : ℝ :=
  s.kinetic_energy + s.potential_energy

/-- `State.calculate_momentum` (source lines 95-97). -/
def calculate_momentum {n : ℕ} (s : State n) : Vec2 :=
  momentumOf s.masses s.velocities

/-- `State.calculate_center_of_mass` (source lines 99-101). -/
def calculate_center_of_mass {n : ℕ} (s : State n) : Vec2 :=
  centerOfMassOf s.masses s.positions

/-- `State.calculate_angular_momentum` (source lines 103-107): reads the
stored `momentum` and `center_of_mass` attributes,
`result = masses[:,newaxis] * (velocities - momentum / np.sum(masses))`,
`result = np.cross(positions - center_of_mass, result)`, `- np.sum(result)`. -/
def calculate_angular_momentum {n : ℕ} (s : State n) : ℝ :=
  - ∑ i, cross2 (s.positions i - s.center_of_mass)
      (s.masses i • (s.velocities i - vdiv s.momentum (∑ k, s.masses k)))

/-- `State.__init__` (source lines 29-48) after the input arrays are built:
the derived attributes are assigned in source order, each computed from the
attributes assigned so far. -/
def initState {n : ℕ} (G : ℝ) (m : Fin n → ℝ) (p v : Fin n → Vec2) (dt : ℝ) :
    State n :=
  let s0 : State n :=
    { NewtonG := G
      dt := dt
      masses := m
      positions := p
      velocities := v
      accelerations := fun _ => 0
      momentum := 0
      kinetic_energy := 0
      potential_energy := 0
      energy := 0
      center_of_mass := 0
      angular_momentum := 0 }
  let s1 := { s0 with accelerations := calculate_acceleration s0 }
  let s2 := { s1 with momentum := calculate_momentum s1 }
  let s3 := { s2 with kinetic_energy := calculate_kinetic s2 }
  let s4 := { s3 with potential_energy := calculate_potential s3 }
  let s5 := { s4 with energy := calculate_energy s4 }
  let s6 := { s5 with center_of_mass := calculate_center_of_mass s5 }
  { s6 with angular_momentum := calculate_angular_momentum s6 }

/-- The `Particle` constructor arguments (source lines 7-12). -/
structure Particle where
  mass : ℝ
  position : Vec2
  velocity : Vec2

/-- Errors construction can surface.  `valueError` is the `ValueError`
numpy raises from `np.vstack([])` on an empty particle list; `invalidInput`
is the `InvalidInputError` of the specification, which nothing in the
source ever raises. -/
inductive ConstructError where
  | valueError
  | invalidInput
deriving DecidableEq

/-- Constructing a `State` (source lines 29-48).  `__init__` performs no
validation: the only failure is `np.vstack` on an empty particle list,
which raises `ValueError`; every other input constructs successfully. -/
def mkState (G : ℝ) (ps : List Particle) (dt : ℝ) :
    Except ConstructError (State ps.length) :=
  if ps.length = 0 then .error .valueError
  else .ok (initState G (fun i => (ps.get i).mass) (fun i => (ps.get i).position)
    (fun i => (ps.get i).velocity) dt)

/-- `State.update` (source lines 109-117): one velocity-Verlet step. -/
def update {n : ℕ} (s : State n) : State n :=
  let x1 := fun i => s.positions i + s.dt • s.velocities i
    + (0.5 * s.dt * s.dt) • s.accelerations i
  let a1 := accelOf s.NewtonG s.masses x1
  { s with
    positions := x1
    accelerations := a1
    velocities := fun i => s.velocities i + (0.5 * s.dt) • (s.accelerations i + a1 i) }

/-- `State.update_trackables` (source lines 119-129): recomputes the five
diagnostic attributes in source order (the per-particle snapshot writes of
lines 121-124 copy rows of the arrays to the render-side `Particle`
objects and never feed back into the state).  `angular_momentum` is not
recomputed. -/
def update_trackables {n : ℕ} (s : State n) : State n :=
  let s1 := { s with momentum := calculate_momentum s }
  let s2 := { s1 with kinetic_energy := calculate_kinetic s1 }
  let s3 := { s2 with potential_energy := calculate_potential s2 }
  let s4 := { s3 with energy := calculate_energy s3 }
  { s4 with center_of_mass := calculate_center_of_mass s4 }

/-- The two mutating calls a driver may interleave on a `State`. -/
inductive Op where
  | doUpdate
  | doUpdateTrackables

/-- Apply one mutating call. -/
def applyOp {n : ℕ} (s : State n) : Op → State n
  | .doUpdate => update s
  | .doUpdateTrackables => update_trackables s

/-- Apply a sequence of mutating calls, left to right. -/
def applyOps {n : ℕ} (s : State n) (ops : List Op) : State n :=
  ops.foldl applyOp s

/-- Modelled from the spec: the reference potential energy
`-G * sum over unordered pairs i < j of mass_i * mass_j / r_ij`, each pair
counted exactly once, sign negative. -/
def refPotential {n : ℕ} (s : State n) : ℝ :=
  - s.NewtonG * ∑ i, ∑ j,
      (if i < j then s.masses i * s.masses j / norm2 (s.positions j - s.positions i) else 0)

/-! ### Basic facts about the embedded numpy pipeline -/

lemma norm2_nonneg (v : Vec2) : 0 ≤ norm2 v := Real.sqrt_nonneg _

lemma norm2_zero : norm2 (0 : Vec2) = 0 := by
  simp [norm2]

lemma norm2_eq_zero {v : Vec2} : norm2 v = 0 ↔ v = 0 := by
  unfold norm2
  rw [Real.sqrt_eq_zero']
  constructor
  · intro h
    have h1 : v.1 ^ 2 = 0 := le_antisymm (by nlinarith [sq_nonneg v.2]) (sq_nonneg v.1)
    have h2 : v.2 ^ 2 = 0 := le_antisymm (by nlinarith [sq_nonneg v.1]) (sq_nonneg v.2)
    have := sq_eq_zero_iff.mp h1
    have := sq_eq_zero_iff.mp h2
    exact Prod.ext_iff.mpr ⟨by simp_all, by simp_all⟩
  · rintro rfl
    norm_num

lemma norm2_sub_comm (a b : Vec2) : norm2 (a - b) = norm2 (b - a) := by
  unfold norm2
  congr 1
  simp only [Prod.fst_sub, Prod.snd_sub]
  ring

lemma eye_self {n : ℕ} (i : Fin n) : eye i i = 1 := if_pos rfl

lemma eye_ne {n : ℕ} {i j : Fin n} (h : i ≠ j) : eye i j = 0 := if_neg h

lemma eye_symm {n : ℕ} (i j : Fin n) : eye i j = eye j i := by
  unfold eye
  simp [eq_comm]

lemma accFactor_self {n : ℕ} (p : Fin n → Vec2) (i : Fin n) : accFactor p i i = 0 := by
  simp [accFactor, invCubeEnt, npInv, distVec, eye_self, sub_self, norm2_zero]

lemma accFactor_coincident {n : ℕ} {p : Fin n → Vec2} {i j : Fin n} (hij : i ≠ j)
    (hp : p j = p i) : accFactor p i j = 0 := by
  simp [accFactor, invCubeEnt, npInv, distVec, eye_ne hij, hp, sub_self, norm2_zero]

lemma accFactor_ne {n : ℕ} {p : Fin n → Vec2} {i j : Fin n} (hij : i ≠ j)
    (hp : p j ≠ p i) : accFactor p i j = 1 / norm2 (p j - p i) ^ 3 := by
  have hr : norm2 (p j - p i) ≠ 0 := fun h => hp (sub_eq_zero.mp (norm2_eq_zero.mp h))
  have h3 : norm2 (p j - p i) ^ 3 ≠ 0 := pow_ne_zero _ hr
  simp [accFactor, invCubeEnt, npInv, distVec, eye_ne hij, h3]

lemma accFactor_symm {n : ℕ} (p : Fin n → Vec2) (i j : Fin n) :
    accFactor p i j = accFactor p j i := by
  unfold accFactor invCubeEnt distVec
  rw [norm2_sub_comm (p j) (p i), eye_symm i j]

lemma potFactor_self {n : ℕ} (p : Fin n → Vec2) (i : Fin n) : potFactor p i i = 0 := by
  simp [potFactor, invEnt, npInv, distVec, eye_self, sub_self, norm2_zero]

lemma potFactor_coincident {n : ℕ} {p : Fin n → Vec2} {i j : Fin n} (hij : i ≠ j)
    (hp : p j = p i) : potFactor p i j = 0 := by
  simp [potFactor, invEnt, npInv, distVec, eye_ne hij, hp, sub_self, norm2_zero]

lemma potFactor_ne {n : ℕ} {p : Fin n → Vec2} {i j : Fin n} (hij : i ≠ j)
    (hp : p j ≠ p i) : potFactor p i j = 1 / norm2 (p j - p i) := by
  have hr : norm2 (p j - p i) ≠ 0 := fun h => hp (sub_eq_zero.mp (norm2_eq_zero.mp h))
  simp [potFactor, invEnt, npInv, distVec, eye_ne hij, hr]

lemma potFactor_symm {n : ℕ} (p : Fin n → Vec2) (i j : Fin n) :
    potFactor p i j = potFactor p j i := by
  unfold potFactor invEnt distVec
  rw [norm2_sub_comm (p j) (p i), eye_symm i j]

/-- A full double sum of a symmetric function vanishing on the diagonal is
twice the sum over the pairs below the diagonal. -/
lemma double_sum_symm {n : ℕ} (t : Fin n → Fin n → ℝ) (hsym : ∀ i j, t i j = t j i)
    (hdiag : ∀ i, t i i = 0) :
    ∑ i, ∑ j, t i j = 2 * ∑ i, ∑ j, (if i < j then t i j else 0) := by
  have key : ∀ i j : Fin n,
      t i j = (if i < j then t i j else 0) + (if j < i then t i j else 0) := by
    intro i j
    rcases lt_trichotomy i j with h | h | h
    · simp [h, asymm h]
    · subst h
      simp [lt_irrefl, hdiag i]
    · simp [h, asymm h]
  calc ∑ i, ∑ j, t i j
      = ∑ i, ∑ j, ((if i < j then t i j else 0) + (if j < i then t i j else 0)) :=
        Finset.sum_congr rfl fun i _ => Finset.sum_congr rfl fun j _ => key i j
    _ = (∑ i, ∑ j, (if i < j then t i j else 0))
        + (∑ i, ∑ j, (if j < i then t i j else 0)) := by
        simp [Finset.sum_add_distrib]
    _ = 2 * ∑ i, ∑ j, (if i < j then t i j else 0) := by
        have hswap : (∑ i, ∑ j, (if j < i then t i j else 0))
            = ∑ i, ∑ j, (if i < j then t i j else 0) := by
          rw [Finset.sum_comm]
          refine Finset.sum_congr rfl fun i _ => Finset.sum_congr rfl fun j _ => ?_
          by_cases h : i < j
          · simpa [h] using hsym j i
          · simp [h]
        rw [hswap]
        ring

/-- A full double sum of an antisymmetric `Vec2`-valued function vanishes. -/
lemma double_sum_antisymm {n : ℕ} (g : Fin n → Fin n → Vec2)
    (h : ∀ i j, g j i = - g i j) : ∑ i, ∑ j, g i j = 0 := by
  have h1 : (∑ i, ∑ j, g i j) = - ∑ i, ∑ j, g i j := by
    conv_lhs => rw [Finset.sum_comm]
    calc ∑ j, ∑ i, g i j = ∑ j, ∑ i, -(g j i) := by
          refine Finset.sum_congr rfl fun j _ => Finset.sum_congr rfl fun i _ => ?_
          rw [h j i]
      _ = - ∑ j, ∑ i, g j i := by simp
  have hf : (∑ i, ∑ j, g i j).1 = 0 := by
    have := congrArg Prod.fst h1
    simp only [Prod.fst_neg] at this
    linarith
  have hs : (∑ i, ∑ j, g i j).2 = 0 := by
    have := congrArg Prod.snd h1
    simp only [Prod.snd_neg] at this
    linarith
  exact Prod.ext_iff.mpr ⟨by simpa using hf, by simpa using hs⟩

/-! ### Concrete configurations used as test inputs -/

/-- A two-body state: unit masses at `(0,0)` and `(1,0)`, `G = 1`. -/
def sTwoBody : State 2 where
  NewtonG := 1
  dt := 1
  masses := ![1, 1]
  positions := ![((0 : ℝ), (0 : ℝ)), ((1 : ℝ), (0 : ℝ))]
  velocities := ![0, 0]
  accelerations := ![0, 0]
  momentum := 0
  kinetic_energy := 0
  potential_energy := 0
  energy := 0
  center_of_mass := 0
  angular_momentum := 0

lemma sTwoBody_distinct : ∀ i j : Fin 2, i ≠ j → sTwoBody.positions i ≠ sTwoBody.positions j := by
  intro i j hij
  fin_cases i <;> fin_cases j <;> simp_all [sTwoBody, Prod.ext_iff]

/-- A state with two coincident particles: unit masses, both at the origin. -/
def sCoincident : State 2 where
  NewtonG := 1
  dt := 1
  masses := ![1, 1]
  positions := ![((0 : ℝ), (0 : ℝ)), ((0 : ℝ), (0 : ℝ))]
  velocities := ![0, 0]
  accelerations := ![0, 0]
  momentum := 0
  kinetic_energy := 0
  potential_energy := 0
  energy := 0
  center_of_mass := 0
  angular_momentum := 0

/-! ### Claim theorems -/

/-- C3: one call to `update` performs exactly one velocity-Verlet step: the new
positions are `x1 = x0 + v0*dt + 0.5*a0*dt^2` using the stored accelerations
`a0`, the new accelerations are the acceleration computation evaluated at `x1`,
the new velocities are `v1 = v0 + 0.5*(a0 + a1)*dt`, and the state afterwards
holds `(x1, v1, a1)`. -/
theorem C3_verlet_step {n : ℕ} (s : State n) :
    (∀ i, (update s).positions i = s.positions i + s.dt • s.velocities i
        + (0.5 * s.dt ^ 2) • s.accelerations i) ∧
    (update s).accelerations = accelOf s.NewtonG s.masses (update s).positions ∧
    (∀ i, (update s).velocities i = s.velocities i
        + (0.5 * s.dt) • (s.accelerations i + (update s).accelerations i)) := by
  refine ⟨fun i => ?_, rfl, fun i => rfl⟩
  have h : (0.5 * s.dt * s.dt : ℝ) = 0.5 * s.dt ^ 2 := by ring
  show s.positions i + s.dt • s.velocities i + (0.5 * s.dt * s.dt) • s.accelerations i = _
  rw [h]

/-- C4: for a state with pairwise-distinct positions, `calculate_acceleration`
returns for each particle `i` the sum over `j ≠ i` of
`G * mass_j * (position_j - position_i) / |position_j - position_i|^3`. -/
theorem C4_acceleration_formula {n : ℕ} (s : State n)
    (h : ∀ i j : Fin n, i ≠ j → s.positions i ≠ s.positions j) (i : Fin n) :
    calculate_acceleration s i = ∑ j ∈ Finset.univ.erase i,
      (s.NewtonG * s.masses j / norm2 (s.positions j - s.positions i) ^ 3) •
        (s.positions j - s.positions i) := by
  unfold calculate_acceleration accelOf
  rw [← Finset.add_sum_erase _ _ (Finset.mem_univ i)]
  have hzero : (s.NewtonG * s.masses i * accFactor s.positions i i)
      • distVec s.positions i i = 0 := by
    simp [accFactor_self, distVec]
  rw [hzero, zero_add]
  refine Finset.sum_congr rfl fun j hj => ?_
  have hji : j ≠ i := Finset.ne_of_mem_erase hj
  rw [distVec, accFactor_ne (Ne.symm hji) (h j i hji), mul_one_div]

/-- C4 witness: the acceleration formula instantiated on the concrete two-body
configuration, whose positions are pairwise distinct. -/
theorem C4_acceleration_formula_witness :
    (∀ i j : Fin 2, i ≠ j → sTwoBody.positions i ≠ sTwoBody.positions j) ∧
    calculate_acceleration sTwoBody 0 = ∑ j ∈ Finset.univ.erase (0 : Fin 2),
      (sTwoBody.NewtonG * sTwoBody.masses j
        / norm2 (sTwoBody.positions j - sTwoBody.positions 0) ^ 3) •
        (sTwoBody.positions j - sTwoBody.positions 0) :=
  ⟨sTwoBody_distinct, C4_acceleration_formula sTwoBody sTwoBody_distinct 0⟩

/-- C6: for every state, whatever the positions and masses, the accelerations
satisfy `sum_i mass_i • acceleration_i = 0` exactly, by antisymmetry of the
pairwise contributions. -/
theorem C6_net_force_zero {n : ℕ} (s : State n) :
    ∑ i, s.masses i • calculate_acceleration s i = 0 := by
  have hrw : ∀ i, s.masses i • calculate_acceleration s i
      = ∑ j, (s.masses i * (s.NewtonG * s.masses j * accFactor s.positions i j))
          • distVec s.positions i j := by
    intro i
    unfold calculate_acceleration accelOf
    rw [Finset.smul_sum]
    exact Finset.sum_congr rfl fun j _ => smul_smul _ _ _
  rw [Finset.sum_congr rfl fun i _ => hrw i]
  refine double_sum_antisymm _ fun i j => ?_
  have hd : distVec s.positions j i = -(distVec s.positions i j) := by
    simp [distVec, neg_sub]
  rw [accFactor_symm s.positions j i, hd, smul_neg]
  refine congrArg Neg.neg ?_
  congr 1
  ring

/-- C7: `calculate_angular_momentum` returns the negative of the sum over the
particles of the 2-D scalar cross product
`(position_i - centerOfMass) x (mass_i * (velocity_i - momentum / totalMass))`,
with the stored `center_of_mass` and `momentum` attributes. -/
theorem C7_angular_momentum_formula {n : ℕ} (s : State n) :
    calculate_angular_momentum s =
      - ∑ i, (((s.positions i).1 - s.center_of_mass.1)
              * (s.masses i * ((s.velocities i).2 - s.momentum.2 / ∑ k, s.masses k))
            - ((s.positions i).2 - s.center_of_mass.2)
              * (s.masses i * ((s.velocities i).1 - s.momentum.1 / ∑ k, s.masses k))) := by
  unfold calculate_angular_momentum
  rw [neg_inj]
  refine Finset.sum_congr rfl fun i _ => ?_
  simp [cross2, vdiv, Prod.fst_sub, Prod.snd_sub, Prod.smul_fst, Prod.smul_snd, smul_eq_mul]

lemma applyOp_angular {n : ℕ} (s : State n) (o : Op) :
    (applyOp s o).angular_momentum = s.angular_momentum := by
  cases o <;> rfl

lemma applyOps_angular {n : ℕ} (s : State n) (ops : List Op) :
    (applyOps s ops).angular_momentum = s.angular_momentum := by
  induction ops generalizing s with
  | nil => rfl
  | cons o t ih =>
      have h : applyOps s (o :: t) = applyOps (applyOp s o) t := rfl
      rw [h, ih (applyOp s o), applyOp_angular]

/-- C9: `update_trackables` recomputes `momentum`, `kinetic_energy`,
`potential_energy`, `energy` and `center_of_mass` from the current positions
and velocities but never recomputes `angular_momentum`: after any sequence of
`update` and `update_trackables` calls on a constructed state, the stored
`angular_momentum` still equals the value computed at construction. -/
theorem C9_angular_momentum_never_recomputed {n : ℕ} (G dt : ℝ) (m : Fin n → ℝ)
    (p v : Fin n → Vec2) (ops : List Op) :
    (applyOps (initState G m p v dt) ops).angular_momentum
      = (initState G m p v dt).angular_momentum ∧
    ∀ s : State n,
      (update_trackables s).momentum = momentumOf s.masses s.velocities ∧
      (update_trackables s).kinetic_energy = kineticOf s.masses s.velocities ∧
      (update_trackables s).potential_energy = potentialOf s.NewtonG s.masses s.positions ∧
      (update_trackables s).energy
        = kineticOf s.masses s.velocities + potentialOf s.NewtonG s.masses s.positions ∧
      (update_trackables s).center_of_mass = centerOfMassOf s.masses s.positions ∧
      (update_trackables s).angular_momentum = s.angular_momentum :=
  ⟨applyOps_angular _ ops, fun _ => ⟨rfl, rfl, rfl, rfl, rfl, rfl⟩⟩

/-- C5: for every state with pairwise-distinct positions, the self pair `(i,i)`
contributes an exact structural zero to particle `i`'s acceleration and to the
potential sum (`accFactor` and `potFactor` are exactly `0` on the diagonal and
so are the corresponding summands), and no infinity survives anywhere in the
guarded pipeline: every intermediate entry is `some`, so the returned entries
are plain (finite) real numbers. -/
theorem C5_self_term_structurally_zero {n : ℕ} (s : State n)
    (h : ∀ i j : Fin n, i ≠ j → s.positions i ≠ s.positions j) :
    (∀ i : Fin n,
        accFactor s.positions i i = 0 ∧
        potFactor s.positions i i = 0 ∧
        (s.NewtonG * s.masses i * accFactor s.positions i i) • distVec s.positions i i = 0 ∧
        -s.NewtonG * s.masses i * s.masses i * potFactor s.positions i i = 0) ∧
    (∀ i j : Fin n, (invCubeEnt s.positions i j).isSome = true ∧
        (invEnt s.positions i j).isSome = true) := by
  constructor
  · intro i
    refine ⟨accFactor_self _ i, potFactor_self _ i, ?_, ?_⟩
    · simp [accFactor_self, distVec]
    · simp [potFactor_self]
  · intro i j
    by_cases hij : i = j
    · subst hij
      constructor <;>
        simp [invCubeEnt, invEnt, npInv, distVec, eye_self, sub_self, norm2_zero]
    · have hr : norm2 (s.positions j - s.positions i) ≠ 0 :=
        fun h0 => (h j i fun e => hij e.symm) (sub_eq_zero.mp (norm2_eq_zero.mp h0))
      have h3 : norm2 (s.positions j - s.positions i) ^ 3 ≠ 0 := pow_ne_zero _ hr
      constructor <;>
        simp [invCubeEnt, invEnt, npInv, distVec, eye_ne hij, hr, h3]

/-- C5 witness: the structural-zero and no-infinity statement instantiated on
the concrete two-body configuration with distinct positions. -/
theorem C5_self_term_structurally_zero_witness :
    (∀ i j : Fin 2, i ≠ j → sTwoBody.positions i ≠ sTwoBody.positions j) ∧
    ((∀ i : Fin 2,
        accFactor sTwoBody.positions i i = 0 ∧
        potFactor sTwoBody.positions i i = 0 ∧
        (sTwoBody.NewtonG * sTwoBody.masses i * accFactor sTwoBody.positions i i)
          • distVec sTwoBody.positions i i = 0 ∧
        -sTwoBody.NewtonG * sTwoBody.masses i * sTwoBody.masses i
          * potFactor sTwoBody.positions i i = 0) ∧
      (∀ i j : Fin 2, (invCubeEnt sTwoBody.positions i j).isSome = true ∧
        (invEnt sTwoBody.positions i j).isSome = true)) :=
  ⟨sTwoBody_distinct, C5_self_term_structurally_zero sTwoBody sTwoBody_distinct⟩

/-- C10: if two distinct particles coincide, `calculate_acceleration` and
`calculate_potential` still return plain real values with no error: the
coincident pair's guarded factors are exactly `0`, every acceleration is the
sum over the particles at a different position of the normal contribution, and
the potential is the sum over the ordered pairs at different positions of the
normal contribution. -/
theorem C10_coincident_pair_contributes_zero {n : ℕ} (s : State n) {i j : Fin n}
    (hij : i ≠ j) (hpos : s.positions i = s.positions j) :
    accFactor s.positions i j = 0 ∧ potFactor s.positions i j = 0 ∧
    (∀ k : Fin n, calculate_acceleration s k
      = ∑ l ∈ Finset.univ.filter (fun l => s.positions l ≠ s.positions k),
          (s.NewtonG * s.masses l / norm2 (s.positions l - s.positions k) ^ 3) •
            (s.positions l - s.positions k)) ∧
    calculate_potential s = ∑ a, ∑ b,
      (if s.positions a ≠ s.positions b
        then -s.NewtonG * s.masses a * s.masses b / norm2 (s.positions b - s.positions a)
        else 0) := by
  refine ⟨accFactor_coincident hij hpos.symm, potFactor_coincident hij hpos.symm, ?_, ?_⟩
  · intro k
    unfold calculate_acceleration accelOf
    rw [← Finset.sum_filter_add_sum_filter_not Finset.univ
      (fun l => s.positions l ≠ s.positions k)]
    have hzero : ∑ l ∈ Finset.univ.filter (fun l => ¬ s.positions l ≠ s.positions k),
        (s.NewtonG * s.masses l * accFactor s.positions k l) • distVec s.positions k l = 0 := by
      refine Finset.sum_eq_zero fun l hl => ?_
      have hlk : s.positions l = s.positions k := not_not.mp (Finset.mem_filter.mp hl).2
      simp [distVec, hlk, sub_self]
    rw [hzero, add_zero]
    refine Finset.sum_congr rfl fun l hl => ?_
    have hne : s.positions l ≠ s.positions k := (Finset.mem_filter.mp hl).2
    have hlk : l ≠ k := fun e => hne (by rw [e])
    rw [distVec, accFactor_ne (Ne.symm hlk) hne, mul_one_div]
  · unfold calculate_potential potentialOf
    refine Finset.sum_congr rfl fun a _ => Finset.sum_congr rfl fun b _ => ?_
    by_cases hab : s.positions a = s.positions b
    · rw [if_neg (not_not.mpr hab)]
      by_cases he : a = b
      · subst he
        simp [potFactor_self]
      · rw [potFactor_coincident he hab.symm, mul_zero]
    · rw [if_pos hab]
      have he : a ≠ b := fun e => hab (by rw [e])
      have hba : s.positions b ≠ s.positions a := fun e => hab e.symm
      rw [potFactor_ne he hba, mul_one_div]

/-- C10 witness: the coincident-pair statement instantiated on the concrete
configuration with two particles at the origin. -/
theorem C10_coincident_pair_contributes_zero_witness :
    ((0 : Fin 2) ≠ 1 ∧ sCoincident.positions 0 = sCoincident.positions 1) ∧
    (accFactor sCoincident.positions 0 1 = 0 ∧ potFactor sCoincident.positions 0 1 = 0 ∧
    (∀ k : Fin 2, calculate_acceleration sCoincident k
      = ∑ l ∈ Finset.univ.filter (fun l => sCoincident.positions l ≠ sCoincident.positions k),
          (sCoincident.NewtonG * sCoincident.masses l
            / norm2 (sCoincident.positions l - sCoincident.positions k) ^ 3) •
            (sCoincident.positions l - sCoincident.positions k)) ∧
    calculate_potential sCoincident = ∑ a, ∑ b,
      (if sCoincident.positions a ≠ sCoincident.positions b
        then -sCoincident.NewtonG * sCoincident.masses a * sCoincident.masses b
          / norm2 (sCoincident.positions b - sCoincident.positions a)
        else 0)) := by
  have h1 : (0 : Fin 2) ≠ 1 := by decide
  have h2 : sCoincident.positions 0 = sCoincident.positions 1 := rfl
  exact ⟨⟨h1, h2⟩, C10_coincident_pair_contributes_zero sCoincident h1 h2⟩

lemma norm2_sTwoBody : norm2 (sTwoBody.positions 1 - sTwoBody.positions 0) = 1 := by
  have h : sTwoBody.positions 1 - sTwoBody.positions 0 = ((1 : ℝ), (0 : ℝ)) := by
    show ((1 : ℝ), (0 : ℝ)) - ((0 : ℝ), (0 : ℝ)) = ((1 : ℝ), (0 : ℝ))
    simp [Prod.ext_iff]
  rw [h]
  simp [norm2]

/-- C1 counterexample: on the two-body configuration with unit masses at unit
distance and `G = 1`, `calculate_potential` returns `-2` while the reference
unordered-pair formula gives `-1`: the source sums over all ordered pairs and
never halves, so each unordered pair is counted twice. -/
theorem C1_counterexample : calculate_potential sTwoBody ≠ refPotential sTwoBody := by
  have e01 : potFactor sTwoBody.positions 0 1 = 1 := by
    rw [potFactor_ne (by decide) (sTwoBody_distinct 1 0 (by decide)), norm2_sTwoBody]
    norm_num
  have e10 : potFactor sTwoBody.positions 1 0 = 1 := by
    rw [potFactor_ne (by decide) (sTwoBody_distinct 0 1 (by decide)),
      norm2_sub_comm, norm2_sTwoBody]
    norm_num
  have hm0 : sTwoBody.masses 0 = 1 := rfl
  have hm1 : sTwoBody.masses 1 = 1 := rfl
  have hG : sTwoBody.NewtonG = 1 := rfl
  have hpot : calculate_potential sTwoBody = -2 := by
    unfold calculate_potential potentialOf
    simp only [Fin.sum_univ_two]
    rw [potFactor_self sTwoBody.positions 0, potFactor_self sTwoBody.positions 1,
      e01, e10, hm0, hm1, hG]
    norm_num
  have href : refPotential sTwoBody = -1 := by
    unfold refPotential
    simp only [Fin.sum_univ_two]
    rw [if_neg (lt_irrefl (0 : Fin 2)), if_pos (by decide : (0 : Fin 2) < 1),
      if_neg (by decide : ¬ (1 : Fin 2) < 0), if_neg (lt_irrefl (1 : Fin 2)),
      norm2_sTwoBody, hm0, hm1, hG]
    norm_num
  rw [hpot, href]
  norm_num

/-- C1 amended: for every state with pairwise-distinct positions,
`calculate_potential` returns the full symmetric sum over ordered pairs
`-G * sum over i ≠ j of mass_i * mass_j / r_ij`, which is exactly twice the
reference potential `-G * sum over unordered pairs i < j` (each pair is
counted twice, not once). -/
theorem C1_amended_potential_double_counted {n : ℕ} (s : State n)
    (h : ∀ i j : Fin n, i ≠ j → s.positions i ≠ s.positions j) :
    calculate_potential s = 2 * refPotential s := by
  have hsym : ∀ i j : Fin n,
      -s.NewtonG * s.masses i * s.masses j * potFactor s.positions i j
        = -s.NewtonG * s.masses j * s.masses i * potFactor s.positions j i := by
    intro i j
    rw [potFactor_symm]
    ring
  have hdiag : ∀ i : Fin n,
      -s.NewtonG * s.masses i * s.masses i * potFactor s.positions i i = 0 := by
    intro i
    simp [potFactor_self]
  have h2 : (∑ i, ∑ j, (if i < j
        then -s.NewtonG * s.masses i * s.masses j * potFactor s.positions i j else 0))
      = -s.NewtonG * ∑ i, ∑ j, (if i < j
        then s.masses i * s.masses j / norm2 (s.positions j - s.positions i) else 0) := by
    rw [Finset.mul_sum]
    refine Finset.sum_congr rfl fun i _ => ?_
    rw [Finset.mul_sum]
    refine Finset.sum_congr rfl fun j _ => ?_
    by_cases hlt : i < j
    · rw [if_pos hlt, if_pos hlt]
      have hne : i ≠ j := ne_of_lt hlt
      rw [potFactor_ne hne (h j i (Ne.symm hne))]
      ring
    · rw [if_neg hlt, if_neg hlt, mul_zero]
  unfold calculate_potential potentialOf refPotential
  calc ∑ i, ∑ j, -s.NewtonG * s.masses i * s.masses j * potFactor s.positions i j
      = 2 * ∑ i, ∑ j, (if i < j
          then -s.NewtonG * s.masses i * s.masses j * potFactor s.positions i j else 0) :=
        double_sum_symm _ hsym hdiag
    _ = 2 * (-s.NewtonG * ∑ i, ∑ j, (if i < j
          then s.masses i * s.masses j / norm2 (s.positions j - s.positions i) else 0)) := by
        rw [h2]

/-- C1 amended witness: the double-counting identity instantiated on the
concrete two-body configuration with distinct positions. -/
theorem C1_amended_potential_double_counted_witness :
    (∀ i j : Fin 2, i ≠ j → sTwoBody.positions i ≠ sTwoBody.positions j) ∧
    calculate_potential sTwoBody = 2 * refPotential sTwoBody :=
  ⟨sTwoBody_distinct, C1_amended_potential_double_counted sTwoBody sTwoBody_distinct⟩

/-- C2 counterexample: constructing a `State` from one particle of mass `-1`
(violating `mass > 0`) with time step `-1` (violating `timeStep > 0`) succeeds
rather than raising `InvalidInputError`: `__init__` performs no validation. -/
theorem C2_counterexample :
    ∃ s : State 1, mkState 1 [⟨-1, 0, 0⟩] (-1) = Except.ok s :=
  ⟨_, rfl⟩

/-- C2 amended: constructing a `State` never raises `InvalidInputError`.
The only failing input is an empty particle list, where `np.vstack` raises
`ValueError`; every input with at least one particle - whatever the masses
and the time step, with mismatched lengths impossible because each particle
carries its own data - constructs successfully. -/
theorem C2_amended_no_validation (G dt : ℝ) (ps : List Particle) :
    (mkState G ps dt = Except.error ConstructError.valueError ↔ ps = []) ∧
    (mkState G ps dt = Except.error ConstructError.valueError
      ∨ ∃ s, mkState G ps dt = Except.ok s) := by
  cases ps with
  | nil => exact ⟨⟨fun _ => rfl, fun _ => rfl⟩, Or.inl rfl⟩
  | cons a t =>
      refine ⟨⟨fun h => ?_, fun h => ?_⟩, Or.inr ⟨_, rfl⟩⟩
      · exact absurd h (by simp [mkState])
      · exact absurd h (List.cons_ne_nil a t)

/-- C8: constructing a `State` from one particle of mass `5` at the origin
with zero velocity succeeds, and the constructed state stores zero
acceleration, zero momentum, zero potential energy and zero kinetic energy. -/
theorem C8_single_particle_zeros (G dt : ℝ) :
    ∃ s : State 1, mkState G [⟨5, 0, 0⟩] dt = Except.ok s ∧
      (∀ i, s.accelerations i = 0) ∧ s.momentum = 0 ∧
      s.potential_energy = 0 ∧ s.kinetic_energy = 0 := by
  refine ⟨_, rfl, ?_, ?_, ?_, ?_⟩
  · intro i
    have hi : i = 0 := Subsingleton.elim i 0
    subst hi
    simp [initState, calculate_acceleration, accelOf, distVec, Fin.sum_univ_one, sub_self]
  · simp [initState, calculate_momentum, momentumOf, Fin.sum_univ_one]
  · simp [initState, calculate_potential, potentialOf, Fin.sum_univ_one,
      potFactor_self]
  · simp [initState, calculate_kinetic, kineticOf, Fin.sum_univ_one, norm2_zero]

end

end GravitySim
